import Mathlib

/-
Verification development for the kids.data repository (kids/data/mdict.py
and kids/data/dct.py): path-addressed access into nested dict/list trees,
escape-aware path tokenization, and classify/unclassify (inflate/deflate).

Shallow embedding conventions:
- Python strings are lists of characters (Tok); the String wrappers at the
  API boundary mirror the Python signatures.
- A nested Python structure is the inductive type Node: a dict is
  Node.mapping (an association list preserving insertion order), a list is
  Node.seq, and any other value is Node.leaf carrying the text of its
  Python repr (only its repr is ever observed by the embedded code).
- Python exceptions are explicit error values (PyErr, ClsErr); a raising
  function returns Except.
-/

namespace Mdict

/-- A token, or a raw path, is a Python string modelled as a list of characters. -/
abbrev Tok := List Char

/-- Prepend a character to the head token of a split result; models the
acc list bookkeeping of mk_solid_split. -/
def consHead (c : Char) : Tok ⊕ (Tok × List Char) → Tok ⊕ (Tok × List Char)
  | .inl t => .inl (c :: t)
  | .inr (t, r) => .inr (c :: t, r)

/-- mk_solid_split from mdict.py: scan left to right in the NORMAL state;
the quote character switches to the QUOTED state for exactly one character,
which is taken literally; the separator in the NORMAL state ends the head
token, returning the raw (still quoted) remainder; a quote character at the
very end of the input is dropped (the scan ends in the QUOTED state without
appending anything).  .inl head models the plain-string return (no
separator found); .inr (head, remainder) models the pair return. -/
def ssplit (sep esc : Char) : List Char → Tok ⊕ (Tok × List Char)
  | [] => .inl []
  | c :: l =>
    if c = esc then
      match l with
      | [] => .inl []
      | d :: l' => consHead d (ssplit sep esc l')
    else if c = sep then .inr ([], l)
    else consHead c (ssplit sep esc l)

theorem ssplit_nil (sep esc : Char) : ssplit sep esc [] = .inl [] := rfl

theorem ssplit_cons (sep esc c : Char) (l : List Char) :
    ssplit sep esc (c :: l) =
      if c = esc then
        (match l with
         | [] => .inl []
         | d :: l' => consHead d (ssplit sep esc l'))
      else if c = sep then .inr ([], l)
      else consHead c (ssplit sep esc l) := by
  rw [ssplit.eq_def]

theorem consHead_eq_inr {c : Char} {x : Tok ⊕ (Tok × List Char)} {t : Tok}
    {r : List Char} (h : consHead c x = .inr (t, r)) :
    ∃ t', x = .inr (t', r) ∧ t = c :: t' := by
  cases x with
  | inl u => simp [consHead] at h
  | inr p =>
    obtain ⟨u, r'⟩ := p
    simp [consHead] at h
    exact ⟨u, by simp [h.1.symm, h.2]⟩

theorem ssplit_inr_length_aux (sep esc : Char) :
    ∀ (n : Nat) (l : List Char), l.length ≤ n →
      ∀ t r, ssplit sep esc l = .inr (t, r) → r.length < l.length := by
  intro n
  induction n with
  | zero =>
    intro l hl t r h
    have : l = [] := by
      cases l with
      | nil => rfl
      | cons c l1 => simp at hl
    subst this
    simp [ssplit_nil] at h
  | succ n ih =>
    intro l hl t r h
    cases l with
    | nil => simp [ssplit_nil] at h
    | cons c l1 =>
      rw [ssplit_cons] at h
      by_cases hc : c = esc
      · rw [if_pos hc] at h
        cases l1 with
        | nil => simp at h
        | cons d l2 =>
          simp only at h
          obtain ⟨t', hs, ht⟩ := consHead_eq_inr h
          have hlt := ih l2 (by simp at hl; omega) t' r hs
          simp
          omega
      · rw [if_neg hc] at h
        by_cases hsep : c = sep
        · rw [if_pos hsep] at h
          simp at h
          obtain ⟨h1, h2⟩ := h
          subst h2
          simp
        · rw [if_neg hsep] at h
          obtain ⟨t', hs, ht⟩ := consHead_eq_inr h
          have hlt := ih l1 (by simp at hl; omega) t' r hs
          simp
          omega

theorem ssplit_inr_length (sep esc : Char) (l : List Char) :
    ∀ t r, ssplit sep esc l = .inr (t, r) → r.length < l.length :=
  ssplit_inr_length_aux sep esc l.length l (Nat.le_refl _)

/-- The tokenizer built by mk_tokenize_from_sep_fun over mk_sep_fun:
repeatedly apply ssplit; each head is one token, and the scan ends when
ssplit returns a plain string (the final, possibly empty, token). -/
def tokenize (sep esc : Char) (l : List Char) : List Tok :=
  match h : ssplit sep esc l with
  | .inl t => [t]
  | .inr (t, r) => t :: tokenize sep esc r
termination_by l.length
decreasing_by exact ssplit_inr_length sep esc l t r h

theorem tokenize_inl {sep esc : Char} {l : List Char} {t : Tok}
    (h : ssplit sep esc l = .inl t) : tokenize sep esc l = [t] := by
  rw [tokenize.eq_def]
  split
  · rename_i h'
    rw [h'] at h
    cases h
    rfl
  · rename_i h'
    rw [h'] at h
    cases h

theorem tokenize_inr {sep esc : Char} {l : List Char} {t : Tok} {r : List Char}
    {ts : List Tok} (h : ssplit sep esc l = .inr (t, r))
    (h2 : tokenize sep esc r = ts) : tokenize sep esc l = t :: ts := by
  rw [tokenize.eq_def]
  split
  · rename_i h'
    rw [h'] at h
    cases h
  · rename_i t' r' h'
    rw [h'] at h
    cases h
    rw [h2]

theorem tokenize_ne_nil (sep esc : Char) (l : List Char) :
    tokenize sep esc l ≠ [] := by
  rw [tokenize.eq_def]
  split <;> simp

/-- The quoting step of mk_join_fun: prefix every literal occurrence of
the separator or of the quote character with the quote character. -/
def quote (sep esc : Char) : Tok → Tok
  | [] => []
  | c :: t => (if c = sep ∨ c = esc then [esc, c] else [c]) ++ quote sep esc t

/-- mk_untokenize_from_join_fun's recursive untokenizing on a nonempty
token list: quote each token and join with the bare separator. -/
def untokenizing (sep esc : Char) : List Tok → Tok
  | [] => []
  | [t] => quote sep esc t
  | t :: ts => quote sep esc t ++ sep :: untokenizing sep esc ts

/-- untokenize: the source raises ValueError on an empty token list
(modelled as none), otherwise joins the quoted tokens. -/
def untokenize (sep esc : Char) (ts : List Tok) : Option Tok :=
  if ts = [] then none else some (untokenizing sep esc ts)

/-- A string has canonical escaping when every occurrence of the quote
character is immediately followed by a separator or quote character.
These are exactly the strings in the image of untokenize. -/
def canonical (sep esc : Char) : List Char → Bool
  | [] => true
  | c :: l =>
    if c = esc then
      match l with
      | [] => false
      | d :: l' => if d = sep ∨ d = esc then canonical sep esc l' else false
    else canonical sep esc l

/-- A nested Python value: a dict (insertion-ordered association list with
string keys), a list, or any other value (a leaf).  A leaf carries the
text of its Python repr, the only aspect of a leaf the embedded code ever
inspects (for the error preview in aget). -/
inductive Node where
  | leaf : String → Node
  | mapping : List (Tok × Node) → Node
  | seq : List Node → Node

/-- is_dict_like from dct.py: the object must expose getitem, iteration,
get and keys.  A Python dict has all four; a Python list lacks get and
keys; leaf values (numbers, strings, ...) lack at least get and keys.
So on Node the probe holds exactly for mapping. -/
def is_dict_like : Node → Bool
  | .mapping _ => true
  | _ => false

/-- Python dict lookup on the association list (first match). -/
def dlookup (m : List (Tok × Node)) (k : Tok) : Option Node :=
  match m with
  | [] => none
  | (k', v) :: rest => if k' = k then some v else dlookup rest k

/-- Python dict item assignment: replace the value at an existing key in
place, otherwise append the new key (insertion order). -/
def dinsert (m : List (Tok × Node)) (k : Tok) (v : Node) : List (Tok × Node) :=
  match m with
  | [] => [(k, v)]
  | (k', v') :: rest => if k' = k then (k', v) :: rest else (k', v') :: dinsert rest k v

/-- Python dict item deletion (the key is assumed present; on an absent
key the callers raise before reaching this point or model KeyError). -/
def dremove (m : List (Tok × Node)) (k : Tok) : List (Tok × Node) :=
  match m with
  | [] => []
  | (k', v') :: rest => if k' = k then rest else (k', v') :: dremove rest k

/-- One decimal digit of a token. -/
def digitVal (c : Char) : Nat := c.toNat - 48

/-- Value of a nonempty all-digit token. -/
def digitsVal (l : List Char) : Option Nat :=
  if l = [] then none
  else if l.all Char.isDigit then some (l.foldl (fun a c => a * 10 + digitVal c) 0)
  else none

/-- Python int(token) on a plain decimal numeral: an optional sign
followed by at least one digit; anything else raises ValueError (none). -/
def parseInt (t : Tok) : Option Int :=
  match t with
  | '-' :: ds => (digitsVal ds).map (fun n => -(n : Int))
  | '+' :: ds => (digitsVal ds).map (fun n => (n : Int))
  | ds => (digitsVal ds).map (fun n => (n : Int))

/-- Python list-index resolution: a negative index counts from the end
(-1 is the last element); the resolved index must fall inside the list,
otherwise IndexError.  For a negative index the shifted position is below
the length already, and a nonnegative index is already at least zero, so
one bound check remains on each side. -/
def resolveIdx (len : Nat) (i : Int) : Option Nat :=
  if i < 0 then
    if 0 ≤ i + len then some (i + len).toNat else none
  else
    if i < len then some i.toNat else none

/-- The leaf-value preview attached to NonDictLikeTypeError: included
exactly when the repr of the leaf is shorter than 15 characters. -/
def preview (s : String) : Option String :=
  if s.length < 15 then some s else none

/-- The exceptions raised by the navigator functions.  missingKey,
nonDictLike, indexNotInteger and indexOutOfRange are the four enriched
errors defined in mdict.py; keyError is the plain builtin KeyError that
escapes from del on an absent dict key; typeError is the plain builtin
TypeError raised by item assignment or deletion with a string index on a
list, or on a leaf. -/
inductive PyErr where
  | missingKey (k : Tok)
  | nonDictLike (k : Tok) (leafPreview : Option String)
  | indexNotInteger (k : Tok)
  | indexOutOfRange (i : Int) (len : Nat)
  | keyError (k : Tok)
  | typeError
deriving DecidableEq

/-- aget from mdict.py: walk the tree one token at a time.  On a list the
token must parse as a possibly signed integer (else IndexNotIntegerError)
and resolve to an in-range position (else IndexOutOfRange).  On anything
else the token is looked up as a key: a dict answers or raises KeyError,
re-raised as MissingKeyError; a leaf raises TypeError, re-raised as
NonDictLikeTypeError with a short repr preview of the leaf.  An empty
token sequence returns the current value unchanged. -/
def aget (dct : Node) : List Tok → Except PyErr Node
  | [] => .ok dct
  | t :: rest =>
    match dct with
    | .seq l =>
      match parseInt t with
      | none => .error (.indexNotInteger t)
      | some i =>
        match resolveIdx l.length i with
        | none => .error (.indexOutOfRange i l.length)
        | some j => aget (l.getD j (.leaf "")) rest
    | .mapping m =>
      match dlookup m t with
      | none => .error (.missingKey t)
      | some v => aget v rest
    | .leaf s => .error (.nonDictLike t (preview s))

/-- The token-level body of mset from mdict.py.  The source iterates the
tokens keeping the previous token in last: for every token after the
first it descends with aget(dct, (last,)), except that a MissingKeyError
on a dict is caught and replaced by inserting a fresh empty dict; after
the loop it assigns value under the final token with plain item
assignment, which on a dict inserts or overwrites, and on a list or a
leaf raises TypeError because the token is a string.  The in-place
mutation is modelled by rebuilding the tree along the walked path; on an
error the partially created intermediate dicts of the Python original
are discarded together with the error.  The empty token list, which the
string-level mset never produces (tokenize always yields at least one
token), would in Python assign under the non-string key None; it is
modelled as a TypeError. -/
def msetTokens (dct : Node) : List Tok → Node → Except PyErr Node
  | [], _ => .error .typeError
  | [t], v =>
    match dct with
    | .mapping m => .ok (.mapping (dinsert m t v))
    | _ => .error .typeError
  | t1 :: t2 :: rest, v =>
    match dct with
    | .mapping m =>
      match dlookup m t1 with
      | some child =>
        (msetTokens child (t2 :: rest) v).map (fun c => .mapping (dinsert m t1 c))
      | none =>
        (msetTokens (.mapping []) (t2 :: rest) v).map (fun c => .mapping (dinsert m t1 c))
    | .seq l =>
      match parseInt t1 with
      | none => .error (.indexNotInteger t1)
      | some i =>
        match resolveIdx l.length i with
        | none => .error (.indexOutOfRange i l.length)
        | some j =>
          (msetTokens (l.getD j (.leaf "")) (t2 :: rest) v).map (fun c => .seq (l.set j c))
    | .leaf s => .error (.nonDictLike t1 (preview s))

/-- mset with the default char tokenizer (separator dot, quote backslash). -/
def mset (dct : Node) (key : String) (v : Node) : Except PyErr Node :=
  msetTokens dct (tokenize '.' '\\' key.data) v

/-- mget = aget over the default char tokenizer. -/
def mget (dct : Node) (key : String) : Except PyErr Node :=
  aget dct (tokenize '.' '\\' key.data)

/-- The final step of mdel: del dct[token].  On a dict with the key
present the entry is removed; on a dict without the key Python raises the
plain builtin KeyError (not the enriched MissingKeyError that aget
raises); on a list or a leaf the string index raises TypeError. -/
def delFinal (dct : Node) (t : Tok) : Except PyErr Node :=
  match dct with
  | .mapping m =>
    match dlookup m t with
    | none => .error (.keyError t)
    | some _ => .ok (.mapping (dremove m t))
  | _ => .error .typeError

/-- The token-level body of mdel from mdict.py: descend with
aget(dct, (last,)) for every token before the final one, propagating any
traversal error unchanged, then delete the final token from the parent
container reached.  The in-place deletion is modelled by rebuilding the
tree along the walked path.  The empty token list, never produced by
tokenize, would in Python delete the key None; modelled as KeyError. -/
def mdelTokens (dct : Node) : List Tok → Except PyErr Node
  | [] => .error (.keyError [])
  | [t] => delFinal dct t
  | t1 :: t2 :: rest =>
    match dct with
    | .mapping m =>
      match dlookup m t1 with
      | none => .error (.missingKey t1)
      | some child =>
        (mdelTokens child (t2 :: rest)).map (fun c => .mapping (dinsert m t1 c))
    | .seq l =>
      match parseInt t1 with
      | none => .error (.indexNotInteger t1)
      | some i =>
        match resolveIdx l.length i with
        | none => .error (.indexOutOfRange i l.length)
        | some j =>
          (mdelTokens (l.getD j (.leaf "")) (t2 :: rest)).map (fun c => .seq (l.set j c))
    | .leaf s => .error (.nonDictLike t1 (preview s))

/-- mdel with the default char tokenizer. -/
def mdel (dct : Node) (key : String) : Except PyErr Node :=
  mdelTokens dct (tokenize '.' '\\' key.data)

/-- The result of one sep_fun step: either the remaining path is the
final head key together with the value to store, or one head key is
peeled off with a remaining (path, value) tail. -/
inductive SepRes where
  | final (k : Tok) (v : Node)
  | deeper (k : Tok) (rest : Tok) (v : Node)

/-- sep_fun from mk_sep_fun: when the depth budget is exhausted the whole
remaining raw path (still quoted) is the final key; otherwise ssplit
peels the head, and the entry is final exactly when no separator
remains. -/
def sepFun (sep esc : Char) (path : Tok) (v : Node) (deep : Int) : SepRes :=
  if deep = 0 then .final path v
  else
    match ssplit sep esc path with
    | .inl s => .final s v
    | .inr (h, t) => .deeper h t v

theorem sepFun_deeper_ssplit {sep esc : Char} {path : Tok} {v : Node} {deep : Int}
    {k rest : Tok} {v' : Node} (h : sepFun sep esc path v deep = .deeper k rest v') :
    ssplit sep esc path = .inr (k, rest) := by
  unfold sepFun at h
  by_cases hd : deep = 0
  · rw [if_pos hd] at h
    cases h
  · rw [if_neg hd] at h
    rcases hs : ssplit sep esc path with s | ⟨k', t'⟩ <;> rw [hs] at h
    · cases h
    · cases h
      rfl

/-- The TypeErrors raised by classify: either a final value is to be
stored under a key that already holds something, or a deeper entry is to
be classified under a key holding a value that is not dict-like. -/
inductive ClsErr where
  | finalIntoExisting (k : Tok) (prev : Node) (v : Node)
  | classifyIntoFinal (k : Tok) (prev : Node) (rest : Tok) (v : Node)

namespace Classify

/-- The inner mset of classify from mdict.py: split one step; when final,
any existing entry under the head key raises TypeError (there is no
leaf-overwrite case in the source), otherwise the value is stored; when
not final, a missing head key receives a fresh empty dict, a present
non-dict-like value raises TypeError, and the tail is classified
recursively into the sub-dict with the depth budget decremented (minus
one staying minus one, meaning unlimited). -/
def mset (sep esc : Char) (m : List (Tok × Node)) (path : Tok) (v : Node)
    (deep : Int) : Except ClsErr (List (Tok × Node)) :=
  match hs : sepFun sep esc path v deep with
  | .final k lv =>
    match dlookup m k with
    | some prev => .error (.finalIntoExisting k prev lv)
    | none => .ok (dinsert m k lv)
  | .deeper k rest lv =>
    match h2 : dlookup m k with
    | some (.mapping m') =>
      (Classify.mset sep esc m' rest lv (if deep < 0 then -1 else deep - 1)).map
        (fun m'' => dinsert m k (.mapping m''))
    | some prev => .error (.classifyIntoFinal k prev rest lv)
    | none =>
      (Classify.mset sep esc [] rest lv (if deep < 0 then -1 else deep - 1)).map
        (fun m'' => dinsert m k (.mapping m''))
termination_by path.length
decreasing_by
  all_goals
    exact ssplit_inr_length sep esc path k rest (sepFun_deeper_ssplit hs)

end Classify

/-- classify from mdict.py: fold the entries, in the given order, into an
initially empty dict via the inner mset; the first TypeError aborts. -/
def classifyGo (sep esc : Char) (deep : Int) :
    List (Tok × Node) → List (Tok × Node) → Except ClsErr (List (Tok × Node))
  | [], m => .ok m
  | (p, v) :: rest, m =>
    match Classify.mset sep esc m p v deep with
    | .error e => .error e
    | .ok m' => classifyGo sep esc deep rest m'

def classify (sep esc : Char) (values : List (Tok × Node)) (deep : Int) :
    Except ClsErr (List (Tok × Node)) :=
  classifyGo sep esc deep values []

/-- inflate from mdict.py: classify the items of the flat dict, in their
given iteration order, with the standard separator function (the quote
character defaulting to backslash); no sorting is performed. -/
def inflate (values : List (Tok × Node)) (sep : Char) (deep : Int) :
    Except ClsErr (List (Tok × Node)) :=
  classify sep '\\' values deep

/-- Lexicographic comparison of raw keys by character code, modelling
Python string comparison for sorted(). -/
def lexLe : Tok → Tok → Bool
  | [], _ => true
  | _ :: _, [] => false
  | c :: l, d :: m => if c < d then true else if c = d then lexLe l m else false

def insertSorted (e : Tok × Node) : List (Tok × Node) → List (Tok × Node)
  | [] => [e]
  | f :: rest => if lexLe e.1 f.1 then e :: f :: rest else f :: insertSorted e rest

/-- Modelled from the spec: the sorting of the flat entries by raw key
that the specification says inflate performs before calling classify.
The source inflate contains no such sort; this definition exists only to
compare the specified behavior against the source behavior. -/
def sortEntries : List (Tok × Node) → List (Tok × Node)
  | [] => []
  | e :: rest => insertSorted e (sortEntries rest)

/-- unclassify from mdict.py with join_fun = mk_join_fun(sep): walk the
dict; a child value that passes is_dict_like, while the depth budget
allows (strictly positive or exactly minus one), is recursed into and
every produced sub-entry is re-joined as quoted-key, separator, sub-path;
any other child, lists included, is emitted as a final entry under its
quoted key. -/
def unclassifyGo (sep esc : Char) : Int → List (Tok × Node) → List (Tok × Node)
  | _, [] => []
  | deep, (k, v) :: rest =>
    (if is_dict_like v ∧ (deep > 0 ∨ deep = -1) then
      match v with
      | .mapping m' =>
        (unclassifyGo sep esc (if deep < 0 then -1 else deep - 1) m').map
          (fun e => (quote sep esc k ++ sep :: e.1, e.2))
      | _ => [(quote sep esc k, v)]
     else [(quote sep esc k, v)]) ++ unclassifyGo sep esc deep rest

def unclassify (sep esc : Char) (m : List (Tok × Node)) (deep : Int) :
    List (Tok × Node) :=
  unclassifyGo sep esc deep m

/-! ### Dictionary and list lemmas -/

theorem dlookup_dinsert (m : List (Tok × Node)) (k : Tok) (v : Node) :
    dlookup (dinsert m k v) k = some v := by
  induction m with
  | nil => simp [dinsert, dlookup]
  | cons e rest ih =>
    obtain ⟨k', v'⟩ := e
    by_cases hk : k' = k
    · simp [dinsert, hk, dlookup]
    · simp [dinsert, hk, dlookup, ih]

theorem getD_set_self {α : Type} (l : List α) (j : Nat) (c d : α)
    (h : j < l.length) : (l.set j c).getD j d = c := by
  induction l generalizing j with
  | nil => simp at h
  | cons a rest ih =>
    cases j with
    | zero => simp [List.set]
    | succ j' =>
      simp only [List.set, List.getD, List.get?]
      simpa using ih j' (by simpa using h)

theorem resolveIdx_lt {len : Nat} {i : Int} {j : Nat}
    (h : resolveIdx len i = some j) : j < len := by
  unfold resolveIdx at h
  by_cases hneg : i < 0
  · rw [if_pos hneg] at h
    by_cases hlo : 0 ≤ i + len
    · rw [if_pos hlo] at h
      cases h
      omega
    · rw [if_neg hlo] at h
      cases h
  · rw [if_neg hneg] at h
    by_cases hhi : i < len
    · rw [if_pos hhi] at h
      cases h
      omega
    · rw [if_neg hhi] at h
      cases h

/-! ### Quoting and splitting -/

/-- Prepend a whole token to the head of a split result (proof helper). -/
def consTok (t : Tok) : Tok ⊕ (Tok × List Char) → Tok ⊕ (Tok × List Char)
  | .inl u => .inl (t ++ u)
  | .inr (u, r) => .inr (t ++ u, r)

theorem consTok_nil (x : Tok ⊕ (Tok × List Char)) : consTok [] x = x := by
  cases x with
  | inl u => simp [consTok]
  | inr p => obtain ⟨u, r⟩ := p; simp [consTok]

theorem consHead_consTok (c : Char) (t : Tok) (x : Tok ⊕ (Tok × List Char)) :
    consHead c (consTok t x) = consTok (c :: t) x := by
  cases x with
  | inl u => simp [consTok, consHead]
  | inr p => obtain ⟨u, r⟩ := p; simp [consTok, consHead]

/-- Scanning a quoted token from the NORMAL state consumes it entirely,
appending exactly the original characters, and continues with whatever
follows: quoting commutes with the splitter. -/
theorem ssplit_quote_append (sep esc : Char) :
    ∀ (t : Tok) (rest : List Char),
      ssplit sep esc (quote sep esc t ++ rest) = consTok t (ssplit sep esc rest) := by
  intro t
  induction t with
  | nil => intro rest; simp [quote, consTok_nil]
  | cons c t' ih =>
    intro rest
    by_cases hc : c = sep ∨ c = esc
    · have hq : quote sep esc (c :: t') = esc :: c :: quote sep esc t' := by
        simp [quote, hc]
      rw [hq]
      have : ssplit sep esc (esc :: c :: (quote sep esc t' ++ rest)) =
          consHead c (ssplit sep esc (quote sep esc t' ++ rest)) := by
        rw [ssplit_cons, if_pos rfl]
      simpa [this, ih rest] using consHead_consTok c t' (ssplit sep esc rest)
    · push_neg at hc
      have hq : quote sep esc (c :: t') = c :: quote sep esc t' := by
        simp [quote, hc.1, hc.2]
      rw [hq]
      have : ssplit sep esc (c :: (quote sep esc t' ++ rest)) =
          consHead c (ssplit sep esc (quote sep esc t' ++ rest)) := by
        rw [ssplit_cons, if_neg hc.2, if_neg hc.1]
      simpa [this, ih rest] using consHead_consTok c t' (ssplit sep esc rest)

theorem canonical_cons_not_esc (sep esc c : Char) (l : List Char) (hc : c ≠ esc) :
    canonical sep esc (c :: l) = canonical sep esc l := by
  conv_lhs => rw [canonical.eq_def]
  simp only []
  rw [if_neg hc]

theorem canonical_esc_cons (sep esc d : Char) (l : List Char) :
    canonical sep esc (esc :: d :: l) =
      if d = sep ∨ d = esc then canonical sep esc l else false := by
  conv_lhs => rw [canonical.eq_def]
  simp only []
  simp

/-- Decomposition of a canonically escaped string along one ssplit step:
a no-separator result is exactly the quoting of the returned token, and a
split result decomposes the string as quoted head, separator, remainder,
the remainder being canonical again. -/
theorem canonical_decomp (sep esc : Char) :
    ∀ (n : Nat) (s : List Char), s.length ≤ n → canonical sep esc s = true →
      (∀ t, ssplit sep esc s = .inl t → s = quote sep esc t) ∧
      (∀ t r, ssplit sep esc s = .inr (t, r) →
        s = quote sep esc t ++ sep :: r ∧ canonical sep esc r = true) := by
  intro n
  induction n with
  | zero =>
    intro s hl hcan
    have : s = [] := by
      cases s with
      | nil => rfl
      | cons c l => simp at hl
    subst this
    constructor
    · intro t h
      rw [ssplit_nil] at h
      cases h
      rfl
    · intro t r h
      rw [ssplit_nil] at h
      cases h
  | succ n ih =>
    intro s hl hcan
    cases s with
    | nil =>
      constructor
      · intro t h
        rw [ssplit_nil] at h
        cases h
        rfl
      · intro t r h
        rw [ssplit_nil] at h
        cases h
    | cons c l =>
      by_cases hc : c = esc
      · cases l with
        | nil =>
          have hfalse : canonical sep esc (c :: []) = false := by
            conv_lhs => rw [canonical.eq_def]
            simp only []
            rw [if_pos hc]
          rw [hfalse] at hcan
          cases hcan
        | cons d l' =>
          rw [hc, canonical_esc_cons] at hcan
          by_cases hd : d = sep ∨ d = esc
          · rw [if_pos hd] at hcan
            have hlen : l'.length ≤ n := by simp at hl; omega
            have ihl := ih l' hlen hcan
            have hss : ssplit sep esc (c :: d :: l') =
                consHead d (ssplit sep esc l') := by
              rw [ssplit_cons, if_pos hc]
            constructor
            · intro t h
              rw [hss] at h
              rcases hsp : ssplit sep esc l' with u | ⟨u, r⟩ <;> rw [hsp] at h <;>
                simp [consHead] at h
              have hq := ihl.1 u hsp
              rw [← h, hq]
              simp [quote, hd, hc]
            · intro t r h
              rw [hss] at h
              rcases hsp : ssplit sep esc l' with u | ⟨u, r'⟩ <;> rw [hsp] at h <;>
                simp [consHead] at h
              obtain ⟨h1, h2⟩ := h
              obtain ⟨hq, hcr⟩ := ihl.2 u r' hsp
              subst h1
              subst h2
              refine ⟨?_, hcr⟩
              rw [hq]
              simp [quote, hd, hc]
          · rw [if_neg hd] at hcan
            cases hcan
      · have hcl : canonical sep esc l = true := by
          rw [canonical_cons_not_esc sep esc c l hc] at hcan
          exact hcan
        by_cases hsep : c = sep
        · have hss : ssplit sep esc (c :: l) = .inr ([], l) := by
            rw [ssplit_cons, if_neg hc, if_pos hsep]
          constructor
          · intro t h
            rw [hss] at h
            cases h
          · intro t r h
            rw [hss] at h
            cases h
            exact ⟨by simp [quote, hsep], hcl⟩
        · have ihl := ih l (by simp at hl; omega) hcl
          have hss : ssplit sep esc (c :: l) = consHead c (ssplit sep esc l) := by
            rw [ssplit_cons, if_neg hc, if_neg hsep]
          constructor
          · intro t h
            rw [hss] at h
            rcases hsp : ssplit sep esc l with u | ⟨u, r⟩ <;> rw [hsp] at h <;>
              simp [consHead] at h
            have hq := ihl.1 u hsp
            rw [← h, hq]
            simp [quote, hc, hsep]
          · intro t r h
            rw [hss] at h
            rcases hsp : ssplit sep esc l with u | ⟨u, r'⟩ <;> rw [hsp] at h <;>
              simp [consHead] at h
            obtain ⟨h1, h2⟩ := h
            obtain ⟨hq, hcr⟩ := ihl.2 u r' hsp
            subst h1
            subst h2
            refine ⟨?_, hcr⟩
            rw [hq]
            simp [quote, hc, hsep]

theorem untokenizing_cons (sep esc : Char) (t : Tok) (ts : List Tok)
    (h : ts ≠ []) : untokenizing sep esc (t :: ts) =
      quote sep esc t ++ sep :: untokenizing sep esc ts := by
  cases ts with
  | nil => exact absurd rfl h
  | cons a b => rfl

/-- Tokenizing a canonically escaped string and joining the tokens back
recovers the string. -/
theorem untokenizing_tokenize_aux (sep esc : Char) :
    ∀ (n : Nat) (s : List Char), s.length ≤ n → canonical sep esc s = true →
      untokenizing sep esc (tokenize sep esc s) = s := by
  intro n
  induction n with
  | zero =>
    intro s hl hcan
    have hnil : s = [] := by
      cases s with
      | nil => rfl
      | cons c l => simp at hl
    subst hnil
    rw [tokenize_inl (ssplit_nil sep esc)]
    rfl
  | succ n ih =>
    intro s hl hcan
    rcases hs : ssplit sep esc s with t | ⟨t, r⟩
    · rw [tokenize_inl hs]
      have hq := (canonical_decomp sep esc s.length s (Nat.le_refl _) hcan).1 t hs
      rw [hq]
      rfl
    · obtain ⟨hse, hcr⟩ :=
        (canonical_decomp sep esc s.length s (Nat.le_refl _) hcan).2 t r hs
      rw [tokenize_inr hs rfl]
      rw [untokenizing_cons sep esc t _ (tokenize_ne_nil sep esc r)]
      have hrlen : r.length ≤ n := by
        have := ssplit_inr_length sep esc s t r hs
        omega
      rw [ih r hrlen hcr, hse]

/-- Joining any nonempty token list and re-tokenizing the result recovers
the tokens, provided the separator and quote characters differ. -/
theorem tokenize_untokenizing (sep esc : Char) (hne : sep ≠ esc) :
    ∀ (ts : List Tok), ts ≠ [] →
      tokenize sep esc (untokenizing sep esc ts) = ts := by
  intro ts
  induction ts with
  | nil => intro h; exact absurd rfl h
  | cons t rest ih =>
    intro _
    cases rest with
    | nil =>
      have hq : untokenizing sep esc [t] = quote sep esc t := rfl
      rw [hq]
      have := ssplit_quote_append sep esc t []
      rw [List.append_nil] at this
      rw [ssplit_nil] at this
      simp only [consTok, List.append_nil] at this
      exact tokenize_inl this
    | cons t2 rest2 =>
      rw [untokenizing_cons sep esc t _ (by simp)]
      have hsp : ssplit sep esc (sep :: untokenizing sep esc (t2 :: rest2)) =
          .inr ([], untokenizing sep esc (t2 :: rest2)) := by
        rw [ssplit_cons, if_neg (by intro h; exact hne h), if_pos rfl]
      have := ssplit_quote_append sep esc t (sep :: untokenizing sep esc (t2 :: rest2))
      rw [hsp] at this
      simp only [consTok, List.append_nil] at this
      exact tokenize_inr this (ih (by simp))

/-! ### Claim C2: string round trip through tokenize and untokenize -/

/-- C2 (counterexample): the round trip untokenize(tokenize(s)) == s does
not hold for every string: a lone quote character is dropped by the
scanner (the scan ends in the QUOTED state), so the backslash string
tokenizes to one empty token and untokenizes to the empty string. -/
theorem tokenize_roundtrip_cex :
    untokenize '.' '\\' (tokenize '.' '\\' "\\".data) ≠ some "\\".data := by
  rw [tokenize_inl (show ssplit '.' '\\' "\\".data = .inl [] from rfl)]
  decide

/-- C2 (amended): for every config and every string with canonical
escaping, i.e. in which each occurrence of the quote character is
immediately followed by a separator or quote character,
untokenize(tokenize(s)) == s. -/
theorem tokenize_roundtrip_canonical (sep esc : Char) (s : String)
    (h : canonical sep esc s.data = true) :
    untokenize sep esc (tokenize sep esc s.data) = some s.data := by
  unfold untokenize
  rw [if_neg (tokenize_ne_nil sep esc s.data)]
  rw [untokenizing_tokenize_aux sep esc s.data.length s.data (Nat.le_refl _) h]

/-- C2 (witness): the amended round trip at the canonically escaped
string with an escaped dot. -/
theorem tokenize_roundtrip_canonical_witness :
    canonical '.' '\\' "a\\.b".data = true ∧
      untokenize '.' '\\' (tokenize '.' '\\' "a\\.b".data) = some "a\\.b".data :=
  ⟨by decide, tokenize_roundtrip_canonical '.' '\\' "a\\.b" (by decide)⟩

/-! ### Claim C9: concrete tokenize examples with the default config -/

/-- C9: with the default config (separator dot, quote backslash) the
tokenizer maps foo.bar.wiz to its three segments, an escaped dot into a
single token containing the dot, the empty string to one empty token,
and adjacent separators to an intervening empty token. -/
theorem tokenize_examples :
    tokenize '.' '\\' "foo.bar.wiz".data = ["foo".data, "bar".data, "wiz".data] ∧
    tokenize '.' '\\' "foo\\.bar".data = ["foo.bar".data] ∧
    tokenize '.' '\\' "".data = ["".data] ∧
    tokenize '.' '\\' "foo..bar".data = ["foo".data, "".data, "bar".data] := by
  refine ⟨?_, ?_, ?_, ?_⟩
  · exact tokenize_inr rfl (tokenize_inr rfl (tokenize_inl rfl))
  · exact tokenize_inl rfl
  · exact tokenize_inl rfl
  · exact tokenize_inr rfl (tokenize_inr rfl (tokenize_inl rfl))

/-! ### Claim C10: token-list round trip through untokenize and tokenize -/

/-- C10 (counterexample): the token round trip does not hold for every
separator/escape config: when the separator and quote characters are the
same character, the joining separator is re-read as a quote, so the two
tokens a, b come back as the single token ab. -/
theorem untokenize_tokenize_cex :
    (untokenize '.' '.' [['a'], ['b']]).map (tokenize '.' '.') ≠
      some [['a'], ['b']] := by
  have h1 : (untokenize '.' '.' [['a'], ['b']]).map (tokenize '.' '.') =
      some (tokenize '.' '.' ['a', '.', 'b']) := rfl
  rw [h1, tokenize_inl (show ssplit '.' '.' ['a', '.', 'b'] = .inl ['a', 'b'] from rfl)]
  decide

/-- C10 (amended): for every config whose separator and quote characters
differ and every nonempty token list ts, tokenize(untokenize(ts))
yields exactly ts: untokenize canonically escapes each literal
separator/quote occurrence inside a token and tokenize decodes that
escaping back. -/
theorem untokenize_tokenize_roundtrip (sep esc : Char) (ts : List Tok)
    (hne : sep ≠ esc) (hts : ts ≠ []) :
    (untokenize sep esc ts).map (tokenize sep esc) = some ts := by
  unfold untokenize
  rw [if_neg hts]
  simp only [Option.map]
  rw [tokenize_untokenizing sep esc hne ts hts]

/-- C10 (witness): the amended token round trip at two plain tokens under
the default config. -/
theorem untokenize_tokenize_roundtrip_witness :
    ('.' ≠ '\\' ∧ ([['a'], ['b']] : List Tok) ≠ []) ∧
      (untokenize '.' '\\' [['a'], ['b']]).map (tokenize '.' '\\') =
        some [['a'], ['b']] :=
  ⟨⟨by decide, by decide⟩,
    untokenize_tokenize_roundtrip '.' '\\' [['a'], ['b']] (by decide) (by decide)⟩

/-! ### Step lemmas for aget and mdelTokens -/

theorem aget_nil (dct : Node) : aget dct [] = .ok dct := rfl

theorem aget_leaf (s : String) (t : Tok) (rest : List Tok) :
    aget (Node.leaf s) (t :: rest) = .error (PyErr.nonDictLike t (preview s)) := rfl

theorem aget_mapping_none {m : List (Tok × Node)} {t : Tok} (rest : List Tok)
    (h : dlookup m t = none) :
    aget (Node.mapping m) (t :: rest) = .error (PyErr.missingKey t) := by
  simp [aget, h]

theorem aget_mapping_some {m : List (Tok × Node)} {t : Tok} {child : Node}
    (rest : List Tok) (h : dlookup m t = some child) :
    aget (Node.mapping m) (t :: rest) = aget child rest := by
  simp [aget, h]

theorem aget_seq_badint {t : Tok} (l : List Node) (rest : List Tok)
    (h : parseInt t = none) :
    aget (Node.seq l) (t :: rest) = .error (PyErr.indexNotInteger t) := by
  simp [aget, h]

theorem aget_seq_oob {t : Tok} {i : Int} (l : List Node) (rest : List Tok)
    (h : parseInt t = some i) (h2 : resolveIdx l.length i = none) :
    aget (Node.seq l) (t :: rest) = .error (PyErr.indexOutOfRange i l.length) := by
  simp [aget, h, h2]

theorem aget_seq_ok {t : Tok} {i : Int} {j : Nat} (l : List Node) (rest : List Tok)
    (h : parseInt t = some i) (h2 : resolveIdx l.length i = some j) :
    aget (Node.seq l) (t :: rest) = aget (l.getD j (Node.leaf "")) rest := by
  simp [aget, h, h2]

theorem mdelTokens_single (dct : Node) (t : Tok) :
    mdelTokens dct [t] = delFinal dct t := rfl

theorem mdelTokens_leaf (s : String) (t1 t2 : Tok) (rest : List Tok) :
    mdelTokens (Node.leaf s) (t1 :: t2 :: rest) =
      .error (PyErr.nonDictLike t1 (preview s)) := rfl

theorem mdelTokens_mapping_none {m : List (Tok × Node)} {t1 : Tok} (t2 : Tok)
    (rest : List Tok) (h : dlookup m t1 = none) :
    mdelTokens (Node.mapping m) (t1 :: t2 :: rest) = .error (PyErr.missingKey t1) := by
  simp [mdelTokens, h]

theorem mdelTokens_mapping_some {m : List (Tok × Node)} {t1 : Tok} {child : Node}
    (t2 : Tok) (rest : List Tok) (h : dlookup m t1 = some child) :
    mdelTokens (Node.mapping m) (t1 :: t2 :: rest) =
      (mdelTokens child (t2 :: rest)).map (fun c => Node.mapping (dinsert m t1 c)) := by
  simp [mdelTokens, h]

theorem mdelTokens_seq_badint {t1 : Tok} (l : List Node) (t2 : Tok) (rest : List Tok)
    (h : parseInt t1 = none) :
    mdelTokens (Node.seq l) (t1 :: t2 :: rest) = .error (PyErr.indexNotInteger t1) := by
  simp [mdelTokens, h]

theorem mdelTokens_seq_oob {t1 : Tok} {i : Int} (l : List Node) (t2 : Tok)
    (rest : List Tok) (h : parseInt t1 = some i)
    (h2 : resolveIdx l.length i = none) :
    mdelTokens (Node.seq l) (t1 :: t2 :: rest) =
      .error (PyErr.indexOutOfRange i l.length) := by
  simp [mdelTokens, h, h2]

theorem mdelTokens_seq_ok {t1 : Tok} {i : Int} {j : Nat} (l : List Node) (t2 : Tok)
    (rest : List Tok) (h : parseInt t1 = some i)
    (h2 : resolveIdx l.length i = some j) :
    mdelTokens (Node.seq l) (t1 :: t2 :: rest) =
      (mdelTokens (l.getD j (Node.leaf "")) (t2 :: rest)).map
        (fun c => Node.seq (l.set j c)) := by
  simp [mdelTokens, h, h2]

/-! ### Claim C3: the error taxonomy of aget -/

/-- C3: a complete step characterisation of aget.  An empty key returns
the node; on a Sequence a non-integer token fails with IndexNotInteger,
an integer that does not resolve (after negative-index resolution, minus
one being the last element) fails with IndexOutOfRange carrying the
original index and the length, and a resolving integer descends; on a
Mapping an absent key fails with MissingKey and a present key descends;
on a Leaf with tokens remaining it fails with NonTraversable, whose
preview of the leaf value is included exactly when the repr is shorter
than 15 characters. -/
theorem aget_error_taxonomy :
    (∀ (dct : Node), aget dct [] = .ok dct) ∧
    (∀ (l : List Node) (t : Tok) (rest : List Tok), parseInt t = none →
      aget (Node.seq l) (t :: rest) = .error (PyErr.indexNotInteger t)) ∧
    (∀ (l : List Node) (t : Tok) (rest : List Tok) (i : Int),
      parseInt t = some i → resolveIdx l.length i = none →
      aget (Node.seq l) (t :: rest) = .error (PyErr.indexOutOfRange i l.length)) ∧
    (∀ (l : List Node) (t : Tok) (rest : List Tok) (i : Int) (j : Nat),
      parseInt t = some i → resolveIdx l.length i = some j →
      aget (Node.seq l) (t :: rest) = aget (l.getD j (Node.leaf "")) rest) ∧
    (∀ (m : List (Tok × Node)) (t : Tok) (rest : List Tok), dlookup m t = none →
      aget (Node.mapping m) (t :: rest) = .error (PyErr.missingKey t)) ∧
    (∀ (m : List (Tok × Node)) (t : Tok) (rest : List Tok) (c : Node),
      dlookup m t = some c → aget (Node.mapping m) (t :: rest) = aget c rest) ∧
    (∀ (s : String) (t : Tok) (rest : List Tok),
      aget (Node.leaf s) (t :: rest) = .error (PyErr.nonDictLike t (preview s))) ∧
    (∀ (s : String), s.length < 15 → preview s = some s) ∧
    (∀ (s : String), 15 ≤ s.length → preview s = none) := by
  refine ⟨?_, ?_, ?_, ?_, ?_, ?_, ?_, ?_, ?_⟩
  · intro dct; rfl
  · intro l t rest h; simp [aget, h]
  · intro l t rest i h h2; simp [aget, h, h2]
  · intro l t rest i j h h2; simp [aget, h, h2]
  · intro m t rest h; simp [aget, h]
  · intro m t rest c h; simp [aget, h]
  · intro s t rest; rfl
  · intro s h; simp [preview, h]
  · intro s h; simp [preview]; omega

/-- C3 (witness): the taxonomy applied at concrete inputs: a non-integer
token on a list, an out-of-range index on a one-element list, a missing
key on an empty dict, a leaf with a token remaining and a short preview. -/
theorem aget_error_taxonomy_witness :
    aget (Node.seq [Node.leaf "x"]) [['a']] = .error (PyErr.indexNotInteger ['a']) ∧
    aget (Node.seq [Node.leaf "x"]) [['5']] = .error (PyErr.indexOutOfRange 5 1) ∧
    aget (Node.seq [Node.leaf "x", Node.leaf "y"]) [['-', '1'], []] =
      aget (Node.leaf "y") [[]] ∧
    aget (Node.mapping []) [['k']] = .error (PyErr.missingKey ['k']) ∧
    aget (Node.leaf "v") [['k']] = .error (PyErr.nonDictLike ['k'] (some "v")) :=
  ⟨aget_error_taxonomy.2.1 [Node.leaf "x"] ['a'] [] rfl,
   aget_error_taxonomy.2.2.1 [Node.leaf "x"] ['5'] [] 5 rfl rfl,
   aget_error_taxonomy.2.2.2.1 [Node.leaf "x", Node.leaf "y"] ['-', '1'] [[]] (-1) 1 rfl rfl,
   aget_error_taxonomy.2.2.2.2.1 [] ['k'] [] rfl,
   aget_error_taxonomy.2.2.2.2.2.2.1 "v" ['k'] []⟩

/-! ### Claim C5: mset's final assignment on a Sequence -/

/-- C5 (counterexample): the claim that set performs Sequence index
assignment at the final token, failing with IndexOutOfRange only out of
range, is false: with root a dict holding a two-element list, both the
in-range path a.0 and the out-of-range path a.5 fail with the plain
TypeError of list indexing with a string, and no assignment happens. -/
theorem mset_seq_final_cex :
    msetTokens (Node.mapping [(['a'], Node.seq [Node.leaf "1", Node.leaf "5"])])
        [['a'], ['0']] (Node.leaf "9") = .error PyErr.typeError ∧
    msetTokens (Node.mapping [(['a'], Node.seq [Node.leaf "1", Node.leaf "5"])])
        [['a'], ['5']] (Node.leaf "9") = .error PyErr.typeError ∧
    (Except.error PyErr.typeError : Except PyErr Node) ≠
      .error (PyErr.indexOutOfRange 5 2) := by
  refine ⟨rfl, rfl, by simp⟩

/-- C5 (amended): when the walk of set ends with the last container
reached being a Sequence, the final plain item assignment uses the
string token directly as a list index, so it always fails with the
builtin TypeError, in range or out of range alike; no assignment, no
auto-extension and no IndexOutOfRange occur. -/
theorem mset_seq_final_typeerror (l : List Node) (t : Tok) (v : Node) :
    msetTokens (Node.seq l) [t] v = .error PyErr.typeError := rfl

/-! ### Claim C8: get after set returns the set value -/

theorem msetTokens_aget : ∀ (P : List Tok) (root t' v : Node),
    msetTokens root P v = .ok t' → aget t' P = .ok v := by
  intro P
  induction P with
  | nil =>
    intro root t' v h
    simp [msetTokens] at h
  | cons t rest ih =>
    intro root t' v h
    cases rest with
    | nil =>
      cases root with
      | mapping m =>
        simp only [msetTokens, Except.ok.injEq] at h
        subst h
        simp [aget, dlookup_dinsert]
      | leaf s => simp [msetTokens] at h
      | seq l => simp [msetTokens] at h
    | cons t2 rest2 =>
      cases root with
      | leaf s => simp [msetTokens] at h
      | mapping m =>
        rcases hl : dlookup m t with _ | child
        · simp only [msetTokens, hl] at h
          rcases hm : msetTokens (Node.mapping []) (t2 :: rest2) v with e | c <;>
            rw [hm] at h <;> simp [Except.map] at h
          subst h
          simp only [aget, dlookup_dinsert]
          exact ih (Node.mapping []) c v hm
        · simp only [msetTokens, hl] at h
          rcases hm : msetTokens child (t2 :: rest2) v with e | c <;>
            rw [hm] at h <;> simp [Except.map] at h
          subst h
          simp only [aget, dlookup_dinsert]
          exact ih child c v hm
      | seq l =>
        rcases hp : parseInt t with _ | i
        · simp [msetTokens, hp] at h
        · rcases hr : resolveIdx l.length i with _ | j
          · simp [msetTokens, hp, hr] at h
          · simp only [msetTokens, hp, hr] at h
            rcases hm : msetTokens (l.getD j (Node.leaf "")) (t2 :: rest2) v with e | c <;>
              rw [hm] at h <;> simp [Except.map] at h
            subst h
            have hj : j < l.length := resolveIdx_lt hr
            simp only [aget, hp, List.length_set, hr,
              getD_set_self l j c (Node.leaf "") hj]
            exact ih (l.getD j (Node.leaf "")) c v hm

/-- C8: for every tree, dotted path and value, a successful
mset(root, key, value) is inverted by mget: reading the same key from
the updated tree returns exactly the value stored. -/
theorem mset_mget_roundtrip (root : Node) (key : String) (v t' : Node)
    (h : mset root key v = .ok t') : mget t' key = .ok v :=
  msetTokens_aget (tokenize '.' '\\' key.data) root t' v h

/-- C8 (witness): storing under a.b in an empty dict creates the
intermediate dict and reading a.b back returns the stored leaf. -/
theorem mset_mget_roundtrip_witness :
    mset (Node.mapping []) "a.b" (Node.leaf "1") =
      .ok (Node.mapping [(['a'], Node.mapping [(['b'], Node.leaf "1")])]) ∧
    mget (Node.mapping [(['a'], Node.mapping [(['b'], Node.leaf "1")])]) "a.b" =
      .ok (Node.leaf "1") := by
  have h1 : mset (Node.mapping []) "a.b" (Node.leaf "1") =
      .ok (Node.mapping [(['a'], Node.mapping [(['b'], Node.leaf "1")])]) := by
    unfold mset
    rw [tokenize_inr (show ssplit '.' '\\' "a.b".data = .inr (['a'], ['b']) from rfl)
      (tokenize_inl rfl)]
    rfl
  exact ⟨h1, mset_mget_roundtrip (Node.mapping []) "a.b" (Node.leaf "1") _ h1⟩

/-! ### Claim C6: mdel walks like aget and fails on the final token -/

theorem mdel_walk_aux : ∀ (P : List Tok) (root : Node) (t : Tok),
    (∀ e, aget root P = .error e → mdelTokens root (P ++ [t]) = .error e) ∧
    (∀ parent e, aget root P = .ok parent → delFinal parent t = .error e →
      mdelTokens root (P ++ [t]) = .error e) := by
  intro P
  induction P with
  | nil =>
    intro root t
    constructor
    · intro e h
      simp [aget_nil] at h
    · intro parent e h1 h2
      rw [aget_nil, Except.ok.injEq] at h1
      subst h1
      simpa [mdelTokens_single] using h2
  | cons p P' ih =>
    intro root t
    cases P' with
    | nil =>
      cases root with
      | leaf s =>
        constructor
        · intro e h
          rw [aget_leaf] at h
          simpa [mdelTokens_leaf] using h
        · intro parent e h1 h2
          rw [aget_leaf] at h1
          cases h1
      | mapping m =>
        rcases hl : dlookup m p with _ | child
        · constructor
          · intro e h
            rw [aget_mapping_none [] hl] at h
            simp only [List.cons_append, List.nil_append]
            rw [mdelTokens_mapping_none t [] hl]
            exact h
          · intro parent e h1 h2
            rw [aget_mapping_none [] hl] at h1
            cases h1
        · constructor
          · intro e h
            rw [aget_mapping_some [] hl, aget_nil] at h
            cases h
          · intro parent e h1 h2
            rw [aget_mapping_some [] hl, aget_nil, Except.ok.injEq] at h1
            subst h1
            simp only [List.cons_append, List.nil_append]
            rw [mdelTokens_mapping_some t [] hl, mdelTokens_single, h2]
            rfl
      | seq l =>
        rcases hp : parseInt p with _ | i
        · constructor
          · intro e h
            rw [aget_seq_badint l [] hp] at h
            simp only [List.cons_append, List.nil_append]
            rw [mdelTokens_seq_badint l t [] hp]
            exact h
          · intro parent e h1 h2
            rw [aget_seq_badint l [] hp] at h1
            cases h1
        · rcases hr : resolveIdx l.length i with _ | j
          · constructor
            · intro e h
              rw [aget_seq_oob l [] hp hr] at h
              simp only [List.cons_append, List.nil_append]
              rw [mdelTokens_seq_oob l t [] hp hr]
              exact h
            · intro parent e h1 h2
              rw [aget_seq_oob l [] hp hr] at h1
              cases h1
          · constructor
            · intro e h
              rw [aget_seq_ok l [] hp hr, aget_nil] at h
              cases h
            · intro parent e h1 h2
              rw [aget_seq_ok l [] hp hr, aget_nil, Except.ok.injEq] at h1
              subst h1
              simp only [List.cons_append, List.nil_append]
              rw [mdelTokens_seq_ok l t [] hp hr, mdelTokens_single, h2]
              rfl
    | cons q Q =>
      cases root with
      | leaf s =>
        constructor
        · intro e h
          rw [aget_leaf] at h
          simpa [List.cons_append, mdelTokens_leaf] using h
        · intro parent e h1 h2
          rw [aget_leaf] at h1
          cases h1
      | mapping m =>
        rcases hl : dlookup m p with _ | child
        · constructor
          · intro e h
            rw [aget_mapping_none (q :: Q) hl] at h
            simp only [List.cons_append]
            rw [mdelTokens_mapping_none q (Q ++ [t]) hl]
            exact h
          · intro parent e h1 h2
            rw [aget_mapping_none (q :: Q) hl] at h1
            cases h1
        · constructor
          · intro e h
            rw [aget_mapping_some (q :: Q) hl] at h
            have hrec := (ih child t).1 e h
            simp only [List.cons_append] at hrec ⊢
            rw [mdelTokens_mapping_some q (Q ++ [t]) hl, hrec]
            rfl
          · intro parent e h1 h2
            rw [aget_mapping_some (q :: Q) hl] at h1
            have hrec := (ih child t).2 parent e h1 h2
            simp only [List.cons_append] at hrec ⊢
            rw [mdelTokens_mapping_some q (Q ++ [t]) hl, hrec]
            rfl
      | seq l =>
        rcases hp : parseInt p with _ | i
        · constructor
          · intro e h
            rw [aget_seq_badint l (q :: Q) hp] at h
            simp only [List.cons_append]
            rw [mdelTokens_seq_badint l q (Q ++ [t]) hp]
            exact h
          · intro parent e h1 h2
            rw [aget_seq_badint l (q :: Q) hp] at h1
            cases h1
        · rcases hr : resolveIdx l.length i with _ | j
          · constructor
            · intro e h
              rw [aget_seq_oob l (q :: Q) hp hr] at h
              simp only [List.cons_append]
              rw [mdelTokens_seq_oob l q (Q ++ [t]) hp hr]
              exact h
            · intro parent e h1 h2
              rw [aget_seq_oob l (q :: Q) hp hr] at h1
              cases h1
          · constructor
            · intro e h
              rw [aget_seq_ok l (q :: Q) hp hr] at h
              have hrec := (ih (l.getD j (Node.leaf "")) t).1 e h
              simp only [List.cons_append] at hrec ⊢
              rw [mdelTokens_seq_ok l q (Q ++ [t]) hp hr, hrec]
              rfl
            · intro parent e h1 h2
              rw [aget_seq_ok l (q :: Q) hp hr] at h1
              have hrec := (ih (l.getD j (Node.leaf "")) t).2 parent e h1 h2
              simp only [List.cons_append] at hrec ⊢
              rw [mdelTokens_seq_ok l q (Q ++ [t]) hp hr, hrec]
              rfl

/-- C6 (counterexample): a delete whose final token is absent from the
parent dict fails with the plain builtin KeyError carrying the token, not
with the enriched MissingKeyError of the taxonomy that aget raises (the
source doctest shows the bare KeyError); the two errors differ. -/
theorem mdel_keyerror_cex :
    mdelTokens (Node.mapping [(['a'], Node.mapping [])]) [['a'], ['z']] =
      .error (PyErr.keyError ['z']) ∧
    (Except.error (PyErr.keyError ['z']) : Except PyErr Node) ≠
      .error (PyErr.missingKey ['z']) :=
  ⟨rfl, by simp⟩

/-- C6 (amended): mdel walks to the parent of the final token exactly as
aget, propagating every traversal error of the walk unchanged, and also
propagating the error of the final deletion step; when the final token is
absent from the parent Mapping, that final step fails with the plain
builtin KeyError carrying the token (not the MissingKeyError that get
raises for an absent key). -/
theorem mdel_walk_and_final :
    (∀ (P : List Tok) (root : Node) (t : Tok) (e : PyErr),
      aget root P = .error e → mdelTokens root (P ++ [t]) = .error e) ∧
    (∀ (P : List Tok) (root parent : Node) (t : Tok) (e : PyErr),
      aget root P = .ok parent → delFinal parent t = .error e →
      mdelTokens root (P ++ [t]) = .error e) ∧
    (∀ (m : List (Tok × Node)) (k : Tok), dlookup m k = none →
      delFinal (Node.mapping m) k = .error (PyErr.keyError k)) := by
  refine ⟨?_, ?_, ?_⟩
  · intro P root t e h
    exact (mdel_walk_aux P root t).1 e h
  · intro P root parent t e h1 h2
    exact (mdel_walk_aux P root t).2 parent e h1 h2
  · intro m k h
    simp [delFinal, h]

/-- C6 (witness): the three parts at concrete inputs: a walk error (path
through a leaf) propagates, a missing final key yields the plain
KeyError, and delFinal on a dict lacking the key is that KeyError. -/
theorem mdel_walk_and_final_witness :
    mdelTokens (Node.mapping [(['a'], Node.leaf "v")]) ([['a'], ['b']] ++ [['c']]) =
      .error (PyErr.nonDictLike ['b'] (some "v")) ∧
    mdelTokens (Node.mapping [(['a'], Node.mapping [])]) ([['a']] ++ [['z']]) =
      .error (PyErr.keyError ['z']) ∧
    delFinal (Node.mapping []) ['z'] = .error (PyErr.keyError ['z']) :=
  ⟨mdel_walk_and_final.1 [['a'], ['b']] _ ['c'] _ rfl,
   mdel_walk_and_final.2.1 [['a']] _ (Node.mapping []) ['z'] _ rfl rfl,
   mdel_walk_and_final.2.2 [] ['z'] rfl⟩

/-! ### Claim C1: leaf/leaf collisions in classify -/

/-- C1 (counterexample): two entries with the same exact full path do not
overwrite silently: classify raises a TypeError on the second entry (the
final-into-existing structural conflict), reporting the previous value. -/
theorem classify_leaf_collision_cex :
    classify '.' '\\' [(['a'], Node.leaf "1"), (['a'], Node.leaf "2")] (-1) =
      .error (ClsErr.finalIntoExisting ['a'] (Node.leaf "1") (Node.leaf "2")) := by
  have h1 : Classify.mset '.' '\\' [] ['a'] (Node.leaf "1") (-1) =
      .ok [(['a'], Node.leaf "1")] := by
    rw [Classify.mset.eq_def]
    simp [sepFun, ssplit, consHead, dlookup, dinsert]
  have h2 : Classify.mset '.' '\\' [(['a'], Node.leaf "1")] ['a'] (Node.leaf "2") (-1) =
      .error (ClsErr.finalIntoExisting ['a'] (Node.leaf "1") (Node.leaf "2")) := by
    rw [Classify.mset.eq_def]
    simp [sepFun, ssplit, consHead, dlookup]
  simp [classify, classifyGo, h1, h2]

/-- C1 (amended): whenever the separator step declares an entry final at
key k and k is already present in the dict being built, with whatever
previous value, the inner mset of classify raises TypeError reporting the
key, the previous value and the new value; there is no last-write-wins
for leaf collisions. -/
theorem classify_final_collision_raises (sep esc : Char) (m : List (Tok × Node))
    (path : Tok) (v : Node) (deep : Int) (k : Tok) (prev : Node)
    (h : sepFun sep esc path v deep = .final k v)
    (h2 : dlookup m k = some prev) :
    Classify.mset sep esc m path v deep = .error (.finalIntoExisting k prev v) := by
  rw [Classify.mset.eq_def]
  split
  · rename_i k' lv hs
    have heq := hs.symm.trans h
    cases heq
    simp [h2]
  · rename_i k' rest lv hs
    have heq := hs.symm.trans h
    cases heq

/-- C1 (witness): the amended collision rule at the concrete duplicate
path a with a stored previous leaf. -/
theorem classify_final_collision_raises_witness :
    sepFun '.' '\\' ['a'] (Node.leaf "2") (-1) = .final ['a'] (Node.leaf "2") ∧
    dlookup [(['a'], Node.leaf "1")] ['a'] = some (Node.leaf "1") ∧
    Classify.mset '.' '\\' [(['a'], Node.leaf "1")] ['a'] (Node.leaf "2") (-1) =
      .error (ClsErr.finalIntoExisting ['a'] (Node.leaf "1") (Node.leaf "2")) :=
  ⟨rfl, rfl,
   classify_final_collision_raises '.' '\\' [(['a'], Node.leaf "1")] ['a']
     (Node.leaf "2") (-1) ['a'] (Node.leaf "1") rfl rfl⟩

/-! ### Claim C7: what unclassify descends into -/

/-- C7 (counterexample): unclassify does not recurse into every child the
navigator can traverse: a list child is emitted whole as a leaf entry,
even though aget descends into the same list by index. -/
theorem unclassify_seq_leaf_cex :
    unclassify '.' '\\' [(['a'], Node.seq [Node.leaf "x"])] (-1) =
      [(['a'], Node.seq [Node.leaf "x"])] ∧
    aget (Node.seq [Node.leaf "x"]) [['0']] = .ok (Node.leaf "x") := by
  constructor
  · simp [unclassify, unclassifyGo, is_dict_like, quote]
  · rfl

/-- C7 (amended): unclassify recurses only into children passing
is_dict_like, which requires getitem, iteration, get and keys; a Python
list lacks get and keys, so a Sequence child always fails the probe and
is emitted as a single leaf entry under its quoted key, whatever the
depth budget -- unlike the navigator, which does traverse Sequences. -/
theorem unclassify_seq_emitted_as_leaf (sep esc : Char) (deep : Int) (k : Tok)
    (l : List Node) (rest : List (Tok × Node)) :
    unclassifyGo sep esc deep ((k, Node.seq l) :: rest) =
      (quote sep esc k, Node.seq l) :: unclassifyGo sep esc deep rest ∧
    is_dict_like (Node.seq l) = false := by
  constructor
  · simp [unclassifyGo, is_dict_like]
  · rfl

/-! ### Claim C4: inflate and entry order -/

/-- An entry set whose classification conflict depends on the processing
order: the keys b, a.x, a in this order build b and the section a before
the bare key a arrives, while in sorted order the bare key a arrives
before a.x. -/
def conflictEntries : List (Tok × Node) :=
  [(['b'], Node.leaf "1"), (['a', '.', 'x'], Node.leaf "2"), (['a'], Node.leaf "3")]

theorem inflate_conflictEntries_eval :
    inflate conflictEntries '.' (-1) =
      .error (ClsErr.finalIntoExisting ['a']
        (Node.mapping [(['x'], Node.leaf "2")]) (Node.leaf "3")) := by
  have hb : Classify.mset '.' '\\' [] ['b'] (Node.leaf "1") (-1) =
      .ok [(['b'], Node.leaf "1")] := by
    rw [Classify.mset.eq_def]
    simp [sepFun, ssplit, consHead, dlookup, dinsert]
  have hx : Classify.mset '.' '\\' [] ['x'] (Node.leaf "2") (-1) =
      .ok [(['x'], Node.leaf "2")] := by
    rw [Classify.mset.eq_def]
    simp [sepFun, ssplit, consHead, dlookup, dinsert]
  have hax : Classify.mset '.' '\\' [(['b'], Node.leaf "1")] ['a', '.', 'x']
      (Node.leaf "2") (-1) =
      .ok [(['b'], Node.leaf "1"), (['a'], Node.mapping [(['x'], Node.leaf "2")])] := by
    rw [Classify.mset.eq_def]
    simp [sepFun, ssplit, consHead, dlookup, dinsert, hx, Except.map]
  have ha : Classify.mset '.' '\\'
      [(['b'], Node.leaf "1"), (['a'], Node.mapping [(['x'], Node.leaf "2")])]
      ['a'] (Node.leaf "3") (-1) =
      .error (ClsErr.finalIntoExisting ['a']
        (Node.mapping [(['x'], Node.leaf "2")]) (Node.leaf "3")) := by
    rw [Classify.mset.eq_def]
    simp [sepFun, ssplit, consHead, dlookup]
  simp [inflate, classify, classifyGo, conflictEntries, hb, hax, ha]

theorem inflate_sorted_conflictEntries_eval :
    inflate (sortEntries conflictEntries) '.' (-1) =
      .error (ClsErr.classifyIntoFinal ['a'] (Node.leaf "3") ['x'] (Node.leaf "2")) := by
  have hsort : sortEntries conflictEntries =
      [(['a'], Node.leaf "3"), (['a', '.', 'x'], Node.leaf "2"),
       (['b'], Node.leaf "1")] := rfl
  have ha : Classify.mset '.' '\\' [] ['a'] (Node.leaf "3") (-1) =
      .ok [(['a'], Node.leaf "3")] := by
    rw [Classify.mset.eq_def]
    simp [sepFun, ssplit, consHead, dlookup, dinsert]
  have hax : Classify.mset '.' '\\' [(['a'], Node.leaf "3")] ['a', '.', 'x']
      (Node.leaf "2") (-1) =
      .error (ClsErr.classifyIntoFinal ['a'] (Node.leaf "3") ['x'] (Node.leaf "2")) := by
    rw [Classify.mset.eq_def]
    simp [sepFun, ssplit, consHead, dlookup]
  rw [hsort]
  simp [inflate, classify, classifyGo, ha, hax]

/-- C4 (counterexample): inflate does not sort the entries before
classifying: on the conflict entry set the unsorted source inflate and
the sorted classification of the specification abort with different
structural-conflict errors. -/
theorem inflate_unsorted_cex :
    inflate conflictEntries '.' (-1) ≠
      classify '.' '\\' (sortEntries conflictEntries) (-1) := by
  rw [inflate_conflictEntries_eval]
  rw [show classify '.' '\\' (sortEntries conflictEntries) (-1) =
    inflate (sortEntries conflictEntries) '.' (-1) from rfl]
  rw [inflate_sorted_conflictEntries_eval]
  simp

/-- C4 (amended): inflate passes the flat entries to classify in the
collection's given iteration order, performing no sorting; consequently
which entry triggers a structural conflict depends on the input order:
the same entry set raises the final-into-existing conflict unsorted and
the classify-into-final conflict sorted. -/
theorem inflate_no_sort :
    (∀ (values : List (Tok × Node)) (sep : Char) (deep : Int),
      inflate values sep deep = classify sep '\\' values deep) ∧
    inflate conflictEntries '.' (-1) =
      .error (ClsErr.finalIntoExisting ['a']
        (Node.mapping [(['x'], Node.leaf "2")]) (Node.leaf "3")) ∧
    inflate (sortEntries conflictEntries) '.' (-1) =
      .error (ClsErr.classifyIntoFinal ['a'] (Node.leaf "3") ['x'] (Node.leaf "2")) :=
  ⟨fun _ _ _ => rfl, inflate_conflictEntries_eval, inflate_sorted_conflictEntries_eval⟩

end Mdict
